import Mathlib

/-!
Verification of the DOM serializer of go-xmldom (`marshal.go`).

The development embeds the serialization entry points `Marshal`,
`MarshalIndent`, `MarshalIndentWithOptions` and the internal helpers
`marshalDOMWithOptions`, `marshalElementWithOptions`,
`marshalNodeWithOptions`, `serializeElementWithOptions`,
`serializeNodeWithOptions` as Lean functions over an inductive DOM tree.
Strings are Lean `String`s (sequences of characters), Go's `error` results
are modelled with `Except String`: a Go return `(buf.Bytes(), nil)` becomes
`Except.ok s` and a non-nil error becomes `Except.error msg`.
-/

/-- Models Go `unicode.IsSpace` (the set used by `strings.TrimSpace`):
ASCII whitespace `\t \n \v \f \r ' '`, NEL, NBSP and the Unicode
White_Space code points. -/
def goIsSpace (c : Char) : Bool :=
  c.val == 9 || c.val == 10 || c.val == 11 || c.val == 12 || c.val == 13 ||
  c.val == 32 || c.val == 0x85 || c.val == 0xA0 || c.val == 0x1680 ||
  c.val == 0x2000 || c.val == 0x2001 || c.val == 0x2002 || c.val == 0x2003 ||
  c.val == 0x2004 || c.val == 0x2005 || c.val == 0x2006 || c.val == 0x2007 ||
  c.val == 0x2008 || c.val == 0x2009 || c.val == 0x200A || c.val == 0x2028 ||
  c.val == 0x2029 || c.val == 0x202F || c.val == 0x205F || c.val == 0x3000

/-- Models Go `strings.TrimSpace`: drop leading and trailing whitespace. -/
def trimSpace (s : String) : String :=
  ⟨((s.data.dropWhile goIsSpace).reverse.dropWhile goIsSpace).reverse⟩

/-- Models Go `strings.Repeat s n`: `n` concatenated copies of `s`. -/
def strRepeat (s : String) : Nat → String
  | 0 => ""
  | n + 1 => s ++ strRepeat s n

/-- Modelled from the spec: the expansion of one character performed by
`EscapeString`, which is defined outside the sources at hand (only its
call sites are in `marshal.go`). Per spec section 6 the serializer
XML-escapes `&`, `<`, `>`, and `"`, `'` in attribute contexts, and the
`preserve_whitespace` flag concerns the escaping of newline and tab, so
those are escaped too (as in Go `encoding/xml`, together with `\r`). -/
def escapeChar (c : Char) : List Char :=
  if c = '&' then "&amp;".data
  else if c = '<' then "&lt;".data
  else if c = '>' then "&gt;".data
  else if c = '"' then "&#34;".data
  else if c = '\'' then "&#39;".data
  else if c = '\t' then "&#x9;".data
  else if c = '\n' then "&#xA;".data
  else if c = '\r' then "&#xD;".data
  else [c]

/-- Modelled from the spec: `EscapeString` (not among the given sources)
XML-escapes every character of its argument, see `escapeChar`. -/
def EscapeString (s : String) : String :=
  ⟨s.data.flatMap escapeChar⟩

/-- Models `strings.Contains(attrValue, DQUOTE)`: the value contains a
double-quote character (a one-character pattern, so `Contains` is a
character membership test). -/
def containsDoubleQuote (s : String) : Bool :=
  s.data.any (fun c => c = '"')

/-- Models the call `strings.ReplaceAll(x, OLD, NEW)` on marshal.go line 240,
whose `old` and `new` arguments are both the one-character string holding a
double quote, so each occurrence of `"` is replaced by `"` again. -/
def replaceQuoteByQuote (s : String) : String :=
  ⟨s.data.flatMap (fun c => if c = '"' then ['"'] else [c])⟩

/-- DOM node kinds that `serializeNodeWithOptions` distinguishes. An element
carries its tag name, its attribute list (name/value pairs in insertion
order, the content of the `NamedNodeMap`) and its child list. `other`
stands for any further node type, which the serializer skips. -/
inductive Node where
  | element (tagName : String) (attrs : List (String × String)) (children : List Node)
  | text (data : String)
  | comment (data : String)
  | cdata (data : String)
  | pi (target : String) (data : String)
  | other

/-- Serialization of one attribute, marshal.go lines 228-253: a space, the
name, and the value quoted with single quotes when it contains a double
quote (escaped unless `preserveWhitespace`), double quotes otherwise. -/
def attrSerialize (preserveWhitespace : Bool) (attr : String × String) : String :=
  let attrValue := attr.2
  let useSingleQuote := containsDoubleQuote attrValue
  if useSingleQuote = true then
    " " ++ attr.1 ++ "='" ++
      (if preserveWhitespace = false then replaceQuoteByQuote (EscapeString attrValue)
       else attrValue) ++ "'"
  else
    " " ++ attr.1 ++ "=\"" ++
      (if preserveWhitespace = false then EscapeString attrValue
       else attrValue) ++ "\""

/-- The attribute loop of `serializeElementWithOptions` over the element's
`NamedNodeMap`, in insertion order. -/
def attrsString (preserveWhitespace : Bool) (attrs : List (String × String)) : String :=
  String.join (attrs.map (attrSerialize preserveWhitespace))

mutual

/-- Models the child loop `for child := elem.FirstChild(); ...` of
`serializeElementWithOptions` (marshal.go lines 280-284): serialize each
child in order, propagating a non-nil error immediately. -/
def serializeChildrenLoop (children : List Node) (pfx indent : String) (depth : Nat)
    (preserveWhitespace : Bool) : Except String String :=
  match children with
  | [] => .ok ""
  | child :: rest => do
    let s ← serializeNodeWithOptions child pfx indent depth preserveWhitespace
    let r ← serializeChildrenLoop rest pfx indent depth preserveWhitespace
    .ok (s ++ r)
termination_by structural children

/-- Models `serializeNodeWithOptions` (marshal.go lines 371-445). The
`ELEMENT_NODE` case inlines the body of `serializeElementWithOptions`
with `skipRoot = false` (as called on line 375); the lemma
`serializeNodeWithOptions_element` below relates it to the standalone
`serializeElementWithOptions` definition. -/
def serializeNodeWithOptions (node : Node) (pfx indent : String) (depth : Nat)
    (preserveWhitespace : Bool) : Except String String :=
  match node with
  | .element tagName attrs children =>
    if children.isEmpty = true then
      .ok ((if indent ≠ "" then strRepeat indent depth else "") ++ "<" ++ tagName ++
        attrsString preserveWhitespace attrs ++ "></" ++ tagName ++ ">" ++
        (if indent ≠ "" then "\n" else ""))
    else do
      let kids ← serializeChildrenLoop children pfx indent (depth + 1) preserveWhitespace
      .ok ((if indent ≠ "" then strRepeat indent depth else "") ++ "<" ++ tagName ++
        attrsString preserveWhitespace attrs ++ ">" ++ (if indent ≠ "" then "\n" else "") ++
        kids ++ (if indent ≠ "" then strRepeat indent depth else "") ++ "</" ++ tagName ++
        ">" ++ (if indent ≠ "" then "\n" else ""))
  | .text data =>
    if indent ≠ "" ∧ trimSpace data = "" then .ok ""
    else
      .ok ((if indent ≠ "" then strRepeat indent depth else "") ++
        (if preserveWhitespace = true then data else EscapeString data) ++
        (if indent ≠ "" then "\n" else ""))
  | .comment data =>
    .ok ((if indent ≠ "" then strRepeat indent depth else "") ++ "<!--" ++
      (if preserveWhitespace = true then data else EscapeString data) ++ "-->" ++
      (if indent ≠ "" then "\n" else ""))
  | .cdata data =>
    .ok ((if indent ≠ "" then strRepeat indent depth else "") ++ "<![CDATA[" ++ data ++
      "]]>" ++ (if indent ≠ "" then "\n" else ""))
  | .pi target data =>
    .ok ((if indent ≠ "" then strRepeat indent depth else "") ++ "<?" ++ target ++
      (if data ≠ "" then " " ++ data else "") ++ "?>" ++ (if indent ≠ "" then "\n" else ""))
  | .other => .ok ""
termination_by structural node

end

/-- Models `serializeElementWithOptions` (marshal.go lines 210-301):
indentation, open tag with attributes, `></name>` for a childless element
(explicit paired tags, never self-closing), otherwise the children at
`depth + 1` followed by the close tag. -/
def serializeElementWithOptions (tagName : String) (attrs : List (String × String))
    (children : List Node) (skipRoot : Bool) (pfx indent : String) (depth : Nat)
    (preserveWhitespace : Bool) : Except String String :=
  if skipRoot = false ∧ children.isEmpty = true then
    .ok ((if indent ≠ "" ∧ skipRoot = false then strRepeat indent depth else "") ++ "<" ++
      tagName ++ attrsString preserveWhitespace attrs ++ "></" ++ tagName ++ ">" ++
      (if indent ≠ "" then "\n" else ""))
  else do
    let kids ← serializeChildrenLoop children pfx indent (depth + 1) preserveWhitespace
    if skipRoot = false then
      .ok ((if indent ≠ "" ∧ skipRoot = false then strRepeat indent depth else "") ++ "<" ++
        tagName ++ attrsString preserveWhitespace attrs ++ ">" ++
        (if indent ≠ "" then "\n" else "") ++ kids ++
        (if indent ≠ "" then strRepeat indent depth else "") ++ "</" ++ tagName ++ ">" ++
        (if indent ≠ "" then "\n" else ""))
    else
      .ok kids

/-- The XML declaration literal written by `marshalDOMWithOptions`. -/
def xmlDecl : String := "<?xml version=\"1.0\"?>"

/-- A DOM Document as the serializer consumes it: `DocumentElement()`
returns either nil or the root element, given here by its tag name,
attribute list and child list. -/
structure Document where
  documentElement : Option (String × List (String × String) × List Node)

/-- Models `marshalDOMWithOptions` (marshal.go lines 72-94): XML
declaration, a newline when an indent is given, then the document element
(nothing more when `DocumentElement()` is nil). -/
def marshalDOMWithOptions (doc : Document) (pfx indent : String)
    (preserveWhitespace : Bool) : Except String String :=
  let buf := if indent ≠ "" then xmlDecl ++ "\n" else xmlDecl
  match doc.documentElement with
  | none => .ok buf
  | some (tagName, attrs, children) => do
    let s ← serializeElementWithOptions tagName attrs children false pfx indent 0 preserveWhitespace
    .ok (buf ++ s)

/-- Models `marshalElementWithOptions` (marshal.go lines 102-108): the
element alone, no XML declaration. -/
def marshalElementWithOptions (tagName : String) (attrs : List (String × String))
    (children : List Node) (pfx indent : String) (preserveWhitespace : Bool) :
    Except String String :=
  serializeElementWithOptions tagName attrs children false pfx indent 0 preserveWhitespace

/-- Models `marshalNodeWithOptions` (marshal.go lines 116-122). -/
def marshalNodeWithOptions (node : Node) (pfx indent : String)
    (preserveWhitespace : Bool) : Except String String :=
  serializeNodeWithOptions node pfx indent 0 preserveWhitespace

/-- Models `marshalDOM` (marshal.go line 67). -/
def marshalDOM (doc : Document) (pfx indent : String) (preserveWhitespace : Bool) :
    Except String String :=
  marshalDOMWithOptions doc pfx indent preserveWhitespace

/-- Models `marshalElement` (marshal.go line 97). -/
def marshalElement (tagName : String) (attrs : List (String × String))
    (children : List Node) (pfx indent : String) (preserveWhitespace : Bool) :
    Except String String :=
  marshalElementWithOptions tagName attrs children pfx indent preserveWhitespace

/-- Models `marshalNode` (marshal.go lines 111-113); note that the source
passes `false` for the whitespace option, ignoring its own parameter. -/
def marshalNode (node : Node) (pfx indent : String) (preserveWhitespace : Bool) :
    Except String String :=
  marshalNodeWithOptions node pfx indent false

/-- The DOM values the `v interface\x7b\x7d` argument of `Marshal` can take
after the type switch: a Document, an Element (tag name, attributes,
children), or any other DOM node. The non-DOM branch delegating to
`encoding/xml` is outside the DOM serializer and not modelled. -/
inductive DOMValue where
  | doc (d : Document)
  | elem (tagName : String) (attrs : List (String × String)) (children : List Node)
  | node (n : Node)

/-- Models `Marshal` (marshal.go lines 24-39) on DOM values. The source
passes `preserveWhitespace = true` for Documents and Elements (lines 27
and 31); for plain nodes it passes `true` which `marshalNode` replaces by
`false`. -/
def Marshal : DOMValue → Except String String
  | .doc d => marshalDOM d "" "" true
  | .elem tagName attrs children => marshalElement tagName attrs children "" "" true
  | .node n => marshalNode n "" "" true

/-- Models `MarshalIndentWithOptions` (marshal.go lines 49-64) on DOM
values. -/
def MarshalIndentWithOptions (v : DOMValue) (pfx indent : String)
    (preserveWhitespace : Bool) : Except String String :=
  match v with
  | .doc d => marshalDOMWithOptions d pfx indent preserveWhitespace
  | .elem tagName attrs children =>
    marshalElementWithOptions tagName attrs children pfx indent preserveWhitespace
  | .node n => marshalNodeWithOptions n pfx indent preserveWhitespace

/-- Models `MarshalIndent` (marshal.go lines 43-45). -/
def MarshalIndent (v : DOMValue) (pfx indent : String) (preserveWhitespace : Bool) :
    Except String String :=
  MarshalIndentWithOptions v pfx indent preserveWhitespace

mutual

/-- Reference form of `serializeChildrenLoop`: the same text, with the
always-nil error and the unused `prefix` argument stripped (the
correspondence is proved below). -/
def pChildren (children : List Node) (indent : String) (depth : Nat) (pw : Bool) : String :=
  match children with
  | [] => ""
  | child :: rest => pNode child indent depth pw ++ pChildren rest indent depth pw
termination_by structural children

/-- Reference form of `serializeNodeWithOptions`, error and `prefix`
argument stripped. -/
def pNode (node : Node) (indent : String) (depth : Nat) (pw : Bool) : String :=
  match node with
  | .element tagName attrs children =>
    if children.isEmpty = true then
      (if indent ≠ "" then strRepeat indent depth else "") ++ "<" ++ tagName ++
        attrsString pw attrs ++ "></" ++ tagName ++ ">" ++ (if indent ≠ "" then "\n" else "")
    else
      (if indent ≠ "" then strRepeat indent depth else "") ++ "<" ++ tagName ++
        attrsString pw attrs ++ ">" ++ (if indent ≠ "" then "\n" else "") ++
        pChildren children indent (depth + 1) pw ++
        (if indent ≠ "" then strRepeat indent depth else "") ++ "</" ++ tagName ++ ">" ++
        (if indent ≠ "" then "\n" else "")
  | .text data =>
    if indent ≠ "" ∧ trimSpace data = "" then ""
    else
      (if indent ≠ "" then strRepeat indent depth else "") ++
        (if pw = true then data else EscapeString data) ++ (if indent ≠ "" then "\n" else "")
  | .comment data =>
    (if indent ≠ "" then strRepeat indent depth else "") ++ "<!--" ++
      (if pw = true then data else EscapeString data) ++ "-->" ++
      (if indent ≠ "" then "\n" else "")
  | .cdata data =>
    (if indent ≠ "" then strRepeat indent depth else "") ++ "<![CDATA[" ++ data ++ "]]>" ++
      (if indent ≠ "" then "\n" else "")
  | .pi target data =>
    (if indent ≠ "" then strRepeat indent depth else "") ++ "<?" ++ target ++
      (if data ≠ "" then " " ++ data else "") ++ "?>" ++ (if indent ≠ "" then "\n" else "")
  | .other => ""
termination_by structural node

end

/-- Property: `s` begins with the string `p`. -/
def StartsWith (p s : String) : Prop := ∃ t, s = p ++ t

/-- Side conditions under which a node's own payload cannot spell out an
XML declaration at the head of its serialization: element tag names are
nonempty XML names (which cannot start with `?`), processing-instruction
targets are names not beginning with the reserved letters `xml`, and raw
character data (emitted only when `preserveWhitespace` is set) does not
begin with `<`. -/
def declSafeHead (pw : Bool) : Node → Prop
  | .element tagName _ _ => tagName ≠ "" ∧ tagName.data.head? ≠ some '?'
  | .pi target _ => ¬ ∃ r, target.data = 'x' :: 'm' :: 'l' :: r
  | .text data => pw = true → data.data.head? ≠ some '<'
  | _ => True

/-! ## Basic string lemmas -/

theorem strExt {s t : String} (h : s.data = t.data) : s = t := by
  cases s; cases t; exact congrArg String.mk h

theorem sdata_append (s t : String) : (s ++ t).data = s.data ++ t.data := by
  cases s; cases t; rfl

theorem strAppend_assoc (a b c : String) : a ++ b ++ c = a ++ (b ++ c) :=
  strExt (by simp [sdata_append])

theorem strEmpty_append (s : String) : "" ++ s = s :=
  strExt (by simp [sdata_append])

theorem strAppend_empty (s : String) : s ++ "" = s :=
  strExt (by simp [sdata_append])

theorem eq_empty_of_data_eq_nil {s : String} (h : s.data = []) : s = "" :=
  strExt (by simp [h])

theorem strRepeat_empty (n : Nat) : strRepeat "" n = "" := by
  induction n with
  | zero => rfl
  | succ n ih => rw [strRepeat, ih, strEmpty_append]

theorem ifIndent_strRepeat (indent : String) (d : Nat) :
    (if indent ≠ "" then strRepeat indent d else "") = strRepeat indent d := by
  split
  · rfl
  · rename_i h
    simp only [ne_eq, not_not] at h
    rw [h, strRepeat_empty]

theorem ifIndent_strRepeat2 (indent : String) (d : Nat) :
    (if indent = "" then "" else strRepeat indent d) = strRepeat indent d := by
  split
  · rename_i h
    rw [h, strRepeat_empty]
  · rfl

theorem ifIndent_zero (indent : String) :
    (if indent ≠ "" then strRepeat indent 0 else "") = "" := by
  split <;> rfl

@[simp] theorem exBind_ok {α β : Type} (v : α) (f : α → Except String β) :
    (Except.ok v >>= f : Except String β) = f v := rfl

/-! ## Correspondence between the serializer and its pure reference form -/

mutual

theorem serializeChildrenLoop_eq : ∀ (children : List Node) (pfx indent : String)
    (depth : Nat) (pw : Bool),
    serializeChildrenLoop children pfx indent depth pw = .ok (pChildren children indent depth pw)
  | [], _, _, _, _ => rfl
  | child :: rest, pfx, indent, depth, pw => by
    rw [serializeChildrenLoop, pChildren,
      serializeNodeWithOptions_eq child pfx indent depth pw,
      serializeChildrenLoop_eq rest pfx indent depth pw]
    rfl

theorem serializeNodeWithOptions_eq : ∀ (node : Node) (pfx indent : String)
    (depth : Nat) (pw : Bool),
    serializeNodeWithOptions node pfx indent depth pw = .ok (pNode node indent depth pw)
  | .element t a c, pfx, indent, depth, pw => by
    rw [serializeNodeWithOptions, pNode]
    by_cases h : c.isEmpty = true
    · simp only [if_pos h]
    · simp only [if_neg h, serializeChildrenLoop_eq c pfx indent (depth + 1) pw, exBind_ok]
  | .text d, _, _, _, _ => by
    rw [serializeNodeWithOptions, pNode]
    split <;> rfl
  | .comment d, _, _, _, _ => by rw [serializeNodeWithOptions, pNode]
  | .cdata d, _, _, _, _ => by rw [serializeNodeWithOptions, pNode]
  | .pi t d, _, _, _, _ => by rw [serializeNodeWithOptions, pNode]
  | .other, _, _, _, _ => by rw [serializeNodeWithOptions, pNode]

end

theorem serializeNodeWithOptions_element (t : String) (a : List (String × String))
    (c : List Node) (pfx indent : String) (depth : Nat) (pw : Bool) :
    serializeNodeWithOptions (.element t a c) pfx indent depth pw =
      serializeElementWithOptions t a c false pfx indent depth pw := by
  rw [serializeNodeWithOptions, serializeElementWithOptions]
  by_cases h : c.isEmpty = true <;> simp [h]

theorem serializeElementWithOptions_eq (t : String) (a : List (String × String))
    (c : List Node) (pfx indent : String) (depth : Nat) (pw : Bool) :
    serializeElementWithOptions t a c false pfx indent depth pw =
      .ok (pNode (.element t a c) indent depth pw) :=
  (serializeNodeWithOptions_element t a c pfx indent depth pw).symm.trans
    (serializeNodeWithOptions_eq (.element t a c) pfx indent depth pw)

theorem marshalDOMWithOptions_ok (d : Document) (pfx indent : String) (pw : Bool) :
    ∃ s, marshalDOMWithOptions d pfx indent pw = .ok s := by
  rcases d with ⟨_ | ⟨t, a, c⟩⟩
  · exact ⟨_, rfl⟩
  · exact ⟨(if indent ≠ "" then xmlDecl ++ "\n" else xmlDecl) ++ pNode (.element t a c) indent 0 pw,
      by simp only [marshalDOMWithOptions, serializeElementWithOptions_eq, exBind_ok]⟩

/-! ## Claim theorems -/

/-- C1: the claim says Marshal XML-escapes the character data of every Text
descendant. Evaluating the code at the failing input: `Marshal` passes
`preserveWhitespace = true` (marshal.go line 27), and in that mode the text
branch of `serializeNodeWithOptions` (line 389) writes the data verbatim, so
the ampersand below is emitted raw instead of as an entity. -/
theorem Marshal_text_amp_unescaped :
    Marshal (.doc ⟨some ("r", [], [.text "a&b"])⟩) =
      .ok "<?xml version=\"1.0\"?><r>a&b</r>" := rfl

/-- C2: the claim says an attribute value containing a double quote is
emitted in single quotes with every inner single quote escaped. Evaluating
the code at the failing input: with `preserveWhitespace = true` the single
quote branch (marshal.go line 242) writes the value verbatim, leaving the
inner single quote unescaped (ill-formed XML). -/
theorem attr_single_quote_kept_raw :
    MarshalIndentWithOptions (.elem "r" [("a", "x\"y'z")] []) "" "" true =
      .ok "<r a='x\"y'z'></r>" := rfl

/-- C3: marshaling the programmatically built document (root `books`, child
`book` with attribute `id="1"`, grandchild `title` containing text `Go`)
yields exactly the expected byte string, with explicit paired tags. -/
theorem Marshal_books_example :
    Marshal (.doc ⟨some ("books", [],
        [.element "book" [("id", "1")] [.element "title" [] [.text "Go"]]])⟩) =
      .ok "<?xml version=\"1.0\"?><books><book id=\"1\"><title>Go</title></book></books>" := rfl

/-- C5: an element with no child nodes is serialized as an indentation
part, the open tag with its attributes, then immediately `></name>` — an
explicit open tag followed by the matching close tag, never a self-closing
tag. -/
theorem childless_element_explicit_tags (tagName : String)
    (attrs : List (String × String)) (pfx indent : String) (depth : Nat) (pw : Bool) :
    serializeElementWithOptions tagName attrs [] false pfx indent depth pw =
      .ok ((if indent ≠ "" then strRepeat indent depth else "") ++ "<" ++ tagName ++
        attrsString pw attrs ++ "></" ++ tagName ++ ">" ++
        (if indent ≠ "" then "\n" else "")) := by
  rw [serializeElementWithOptions]
  simp

/-- C6: the claim (and the doc comment on marshal.go line 48) says
`preserveWhitespace` only disables escaping of newline and tab. Evaluating
the code at the failing input: with the flag set the text is written
verbatim, so `<` and `&` are also left unescaped. -/
theorem preserve_whitespace_disables_all_escaping :
    MarshalIndentWithOptions (.node (.text "a<b&c")) "" "" true = .ok "a<b&c" := rfl

/-- C7 counterexample: with non-empty prefix `P` and indent one space, the
character `P` does not occur anywhere in the output — the serializer
ignores the prefix argument entirely, refuting the claim that the prefix
appears in the output whenever it is non-empty. -/
theorem MarshalIndent_pfx_absent :
    MarshalIndent (.elem "a" [] [.text "x"]) "P" " " false = .ok "<a>\n x\n</a>\n" ∧
    'P' ∉ "<a>\n x\n</a>\n".data :=
  ⟨rfl, by decide⟩

/-- C9: on every DOM value (Document, Element, or any other node) the
entry points `Marshal`, `MarshalIndent` and `MarshalIndentWithOptions`
return a nil error: no serialization path over a DOM tree produces a
non-nil error. -/
theorem marshal_never_errors (v : DOMValue) (pfx indent : String) (pw : Bool) :
    (∃ s, Marshal v = .ok s) ∧ (∃ s, MarshalIndent v pfx indent pw = .ok s) ∧
    (∃ s, MarshalIndentWithOptions v pfx indent pw = .ok s) := by
  rcases v with ⟨d⟩ | ⟨t, a, c⟩ | ⟨n⟩
  · exact ⟨marshalDOMWithOptions_ok d "" "" true, marshalDOMWithOptions_ok d pfx indent pw,
      marshalDOMWithOptions_ok d pfx indent pw⟩
  · exact ⟨⟨_, serializeElementWithOptions_eq t a c "" "" 0 true⟩,
      ⟨_, serializeElementWithOptions_eq t a c pfx indent 0 pw⟩,
      ⟨_, serializeElementWithOptions_eq t a c pfx indent 0 pw⟩⟩
  · exact ⟨⟨_, serializeNodeWithOptions_eq n "" "" 0 false⟩,
      ⟨_, serializeNodeWithOptions_eq n pfx indent 0 pw⟩,
      ⟨_, serializeNodeWithOptions_eq n pfx indent 0 pw⟩⟩

/-- C10: marshaling a Document whose `DocumentElement()` is nil succeeds
and returns exactly the XML declaration, followed by a single newline when
a non-empty indent string was given and by nothing otherwise. -/
theorem empty_document_marshal (pfx indent : String) (pw : Bool) :
    marshalDOMWithOptions ⟨none⟩ pfx indent pw =
      .ok (if indent ≠ "" then xmlDecl ++ "\n" else xmlDecl) := rfl

/-! ## The XML declaration appears only for whole-document serialization -/

theorem xmlDecl_data :
    xmlDecl.data = '<' :: '?' :: 'x' :: 'm' :: 'l' :: ' ' :: "version=\"1.0\"?>".data := rfl

theorem no_decl_of_head_ne {s : String} (h : s.data.head? ≠ some '<') :
    ¬ StartsWith xmlDecl s := by
  rintro ⟨u, rfl⟩
  apply h
  rw [sdata_append, xmlDecl_data]
  rfl

theorem no_decl_of_second {s : String} {x y : Char} {r : List Char}
    (hs : s.data = x :: y :: r) (hy : y ≠ '?') : ¬ StartsWith xmlDecl s := by
  rintro ⟨u, rfl⟩
  rw [sdata_append, xmlDecl_data] at hs
  simp only [List.cons_append, List.cons.injEq] at hs
  exact hy hs.2.1.symm

theorem head_append_of_ne_nil {l m : List Char} (h : l ≠ []) : (l ++ m).head? = l.head? := by
  cases l with
  | nil => exact absurd rfl h
  | cons x xs => rfl

theorem nl_head_ne_lt (indent : String) :
    ((if indent ≠ "" then ("\n" : String) else "").data).head? ≠ some '<' := by
  split <;> decide

theorem escapeChar_ne_nil (c : Char) : escapeChar c ≠ [] := by
  unfold escapeChar
  repeat' split
  all_goals first | decide | simp

theorem escapeChar_head_ne_lt (c : Char) : (escapeChar c).head? ≠ some '<' := by
  unfold escapeChar
  repeat' split
  all_goals first | decide | simp_all

theorem pNode_element_shape (t : String) (a : List (String × String)) (c : List Node)
    (indent : String) (depth : Nat) (pw : Bool) :
    ∃ z, pNode (.element t a c) indent depth pw =
      strRepeat indent depth ++ ("<" ++ (t ++ z)) := by
  rw [pNode]
  by_cases h : c.isEmpty = true
  · refine ⟨attrsString pw a ++ ("></" ++ (t ++ (">" ++
      (if indent ≠ "" then "\n" else "")))), ?_⟩
    rw [if_pos h]
    simp [ifIndent_strRepeat, ifIndent_strRepeat2, strAppend_assoc]
  · refine ⟨attrsString pw a ++ (">" ++ ((if indent ≠ "" then "\n" else "") ++
      (pChildren c indent (depth + 1) pw ++ (strRepeat indent depth ++
      ("</" ++ (t ++ (">" ++ (if indent ≠ "" then "\n" else "")))))))), ?_⟩
    rw [if_neg h]
    simp [ifIndent_strRepeat, ifIndent_strRepeat2, strAppend_assoc]

theorem pNode_element_newline (t : String) (a : List (String × String)) (c : List Node)
    (indent : String) (depth : Nat) (pw : Bool) (hind : indent ≠ "") :
    ∃ b, pNode (.element t a c) indent depth pw = b ++ "\n" := by
  rw [pNode]
  by_cases h : c.isEmpty = true
  · refine ⟨strRepeat indent depth ++ "<" ++ t ++ attrsString pw a ++ "></" ++ t ++ ">", ?_⟩
    rw [if_pos h]
    simp [hind]
  · refine ⟨strRepeat indent depth ++ "<" ++ t ++ attrsString pw a ++ ">" ++ "\n" ++
      pChildren c indent (depth + 1) pw ++ strRepeat indent depth ++ "</" ++ t ++ ">", ?_⟩
    rw [if_neg h]
    simp [hind]

theorem piTarget_mismatch {tgt rest tl : List Char}
    (hsafe : ¬ ∃ r, tgt = 'x' :: 'm' :: 'l' :: r)
    (hrest : rest.head? = some ' ' ∨ rest.head? = some '?')
    (h : tgt ++ rest = 'x' :: 'm' :: 'l' :: ' ' :: tl) : False := by
  rcases tgt with _ | ⟨a1, _ | ⟨a2, _ | ⟨a3, r3⟩⟩⟩
  · simp at h
    rcases hrest with hr | hr <;> rw [h] at hr <;> simp at hr
  · simp at h
    rcases hrest with hr | hr <;> rw [h.2] at hr <;> simp at hr
  · simp at h
    rcases hrest with hr | hr <;> rw [h.2.2] at hr <;> simp at hr
  · simp at h
    exact hsafe ⟨r3, by rw [h.1, h.2.1, h.2.2.1]⟩

theorem pNode_no_decl (n : Node) (indent : String) (pw : Bool)
    (hsafe : declSafeHead pw n) : ¬ StartsWith xmlDecl (pNode n indent 0 pw) := by
  cases n with
  | element t a c =>
    obtain ⟨h1, h2⟩ := hsafe
    obtain ⟨z, hz⟩ := pNode_element_shape t a c indent 0 pw
    rw [hz, show strRepeat indent 0 = "" from rfl, strEmpty_append]
    rintro ⟨u, hu⟩
    have hd := congrArg String.data hu
    simp only [sdata_append] at hd
    rw [xmlDecl_data] at hd
    simp only [show ("<" : String).data = ['<'] from rfl, List.cons_append, List.nil_append,
      List.singleton_append, List.append_assoc, List.cons.injEq, true_and] at hd
    cases ht : t.data with
    | nil => exact h1 (eq_empty_of_data_eq_nil ht)
    | cons c0 cs =>
      rw [ht] at hd
      simp only [List.cons_append, List.cons.injEq] at hd
      exact h2 (by rw [ht, List.head?_cons, hd.1])
  | text d =>
    have hs : pw = true → d.data.head? ≠ some '<' := hsafe
    rw [pNode]
    by_cases hc : indent ≠ "" ∧ trimSpace d = ""
    · rw [if_pos hc]
      exact no_decl_of_head_ne (by decide)
    · rw [if_neg hc, ifIndent_zero, strEmpty_append]
      apply no_decl_of_head_ne
      rw [sdata_append]
      by_cases hpw : pw = true
      · rw [if_pos hpw]
        cases hdd : d.data with
        | nil => exact nl_head_ne_lt indent
        | cons c0 cs =>
          have hh := hs hpw
          rw [hdd] at hh
          simpa using hh
      · rw [if_neg hpw]
        rw [show (EscapeString d).data = d.data.flatMap escapeChar from rfl]
        cases hdd : d.data with
        | nil => exact nl_head_ne_lt indent
        | cons c0 cs =>
          rw [List.flatMap_cons, List.append_assoc,
            head_append_of_ne_nil (escapeChar_ne_nil c0)]
          exact escapeChar_head_ne_lt c0
  | comment d =>
    rw [pNode, ifIndent_zero, strEmpty_append]
    rintro ⟨u, hu⟩
    have hd := congrArg String.data hu
    simp only [sdata_append] at hd
    rw [xmlDecl_data] at hd
    simp at hd
  | cdata d =>
    rw [pNode, ifIndent_zero, strEmpty_append]
    rintro ⟨u, hu⟩
    have hd := congrArg String.data hu
    simp only [sdata_append] at hd
    rw [xmlDecl_data] at hd
    simp at hd
  | pi target d =>
    have hsafe' : ¬ ∃ r, target.data = 'x' :: 'm' :: 'l' :: r := hsafe
    rw [pNode, ifIndent_zero, strEmpty_append]
    rintro ⟨u, hu⟩
    have hd := congrArg String.data hu
    simp only [sdata_append] at hd
    rw [xmlDecl_data] at hd
    simp only [show ("<?" : String).data = ['<', '?'] from rfl,
      show ("?>" : String).data = ['?', '>'] from rfl, List.cons_append, List.nil_append,
      List.append_assoc, List.cons.injEq, true_and] at hd
    refine piTarget_mismatch hsafe' ?_ hd
    by_cases hde : d ≠ ""
    · left
      rw [if_pos hde]
      rfl
    · right
      rw [if_neg hde]
      rfl
  | other =>
    rw [pNode]
    exact no_decl_of_head_ne (by decide)

theorem trimSpace_of_all_space {d : String} (h : d.data.all goIsSpace = true) :
    trimSpace d = "" := by
  have h1 : d.data.dropWhile goIsSpace = [] :=
    List.dropWhile_eq_nil_iff.mpr (fun x hx => (List.all_eq_true.mp h) x hx)
  apply strExt
  show ((d.data.dropWhile goIsSpace).reverse.dropWhile goIsSpace).reverse = ("" : String).data
  rw [h1]
  rfl

/-- C4: the XML declaration is emitted exactly for whole-document
serialization. Every Document serialization begins with the declaration;
no Element serialization and no other-node serialization begins with it
(the start of an output is the only place where a declaration can occur in
well-formed XML), given that names are valid: an element tag name is
nonempty and cannot start with `?`, a processing-instruction target cannot
begin with the reserved letters `xml`, and raw character data written with
`preserveWhitespace` does not itself begin with `<`. -/
theorem xml_decl_document_only :
    (∀ (d : Document) (pfx indent : String) (pw : Bool) (s : String),
      marshalDOMWithOptions d pfx indent pw = .ok s → StartsWith xmlDecl s) ∧
    (∀ (tagName : String) (attrs : List (String × String)) (children : List Node)
      (pfx indent : String) (pw : Bool) (s : String),
      tagName ≠ "" → tagName.data.head? ≠ some '?' →
      marshalElementWithOptions tagName attrs children pfx indent pw = .ok s →
      ¬ StartsWith xmlDecl s) ∧
    (∀ (n : Node) (pfx indent : String) (pw : Bool) (s : String),
      declSafeHead pw n →
      marshalNodeWithOptions n pfx indent pw = .ok s → ¬ StartsWith xmlDecl s) := by
  refine ⟨?_, ?_, ?_⟩
  · intro d pfx indent pw s h
    rcases d with ⟨_ | ⟨t, a, c⟩⟩
    · injection h with h
      subst h
      by_cases hi : indent ≠ ""
      · rw [if_pos hi]
        exact ⟨"\n", rfl⟩
      · rw [if_neg hi]
        exact ⟨"", (strAppend_empty xmlDecl).symm⟩
    · simp only [marshalDOMWithOptions, serializeElementWithOptions_eq, exBind_ok] at h
      injection h with h
      subst h
      by_cases hi : indent ≠ ""
      · rw [if_pos hi]
        exact ⟨"\n" ++ pNode (.element t a c) indent 0 pw, strAppend_assoc ..⟩
      · rw [if_neg hi]
        exact ⟨pNode (.element t a c) indent 0 pw, rfl⟩
  · intro tagName attrs children pfx indent pw s h1 h2 h3
    rw [marshalElementWithOptions, serializeElementWithOptions_eq] at h3
    injection h3 with h3
    subst h3
    exact pNode_no_decl (.element tagName attrs children) indent pw ⟨h1, h2⟩
  · intro n pfx indent pw s hsafe h
    rw [marshalNodeWithOptions, serializeNodeWithOptions_eq] at h
    injection h with h
    subst h
    exact pNode_no_decl n indent pw hsafe

/-- C4 witness: the declaration-only properties applied at concrete
inputs: an empty Document, the element `<r></r>`, and the processing
instruction `<?php x?>`. -/
theorem xml_decl_document_only_witness :
    StartsWith xmlDecl xmlDecl ∧ ¬ StartsWith xmlDecl "<r></r>" ∧
    ¬ StartsWith xmlDecl "<?php x?>" :=
  ⟨xml_decl_document_only.1 ⟨none⟩ "" "" false xmlDecl rfl,
   xml_decl_document_only.2.1 "r" [] [] "" "" false "<r></r>"
     (by decide) (by decide) rfl,
   xml_decl_document_only.2.2 (.pi "php" "x") "" "" true "<?php x?>"
     (by rintro ⟨r, hr⟩; simp at hr) rfl⟩

/-- C7 amended: in the indented form every element is serialized as
`depth` copies of `indent`, then its open tag, and (when indenting) its
serialization ends with a newline; the `prefix` argument is ignored by DOM
serialization — it never affects the output (the original claim that the
prefix appears in the output is refuted by the counterexample). -/
theorem indentation_ignores_pfx (tagName : String) (attrs : List (String × String))
    (children : List Node) (pfx pfx2 indent : String) (depth : Nat) (pw : Bool) :
    serializeElementWithOptions tagName attrs children false pfx indent depth pw =
      serializeElementWithOptions tagName attrs children false pfx2 indent depth pw ∧
    (∃ rest, serializeElementWithOptions tagName attrs children false pfx indent depth pw =
      .ok (strRepeat indent depth ++ ("<" ++ (tagName ++ rest)))) ∧
    (indent ≠ "" →
      ∃ body, serializeElementWithOptions tagName attrs children false pfx indent depth pw =
        .ok (body ++ "\n")) := by
  refine ⟨?_, ?_, ?_⟩
  · rw [serializeElementWithOptions_eq, serializeElementWithOptions_eq]
  · obtain ⟨z, hz⟩ := pNode_element_shape tagName attrs children indent depth pw
    exact ⟨z, by rw [serializeElementWithOptions_eq, hz]⟩
  · intro hind
    obtain ⟨b, hb⟩ := pNode_element_newline tagName attrs children indent depth pw hind
    exact ⟨b, by rw [serializeElementWithOptions_eq, hb]⟩

/-- C7 witness: the amended indentation properties at a concrete input
with prefix `P` and indent one space. -/
theorem indentation_ignores_pfx_witness :
    serializeElementWithOptions "a" [] [] false "P" " " 0 false =
      serializeElementWithOptions "a" [] [] false "" " " 0 false ∧
    (∃ rest, serializeElementWithOptions "a" [] [] false "P" " " 0 false =
      .ok (strRepeat " " 0 ++ ("<" ++ ("a" ++ rest)))) ∧
    (∃ body, serializeElementWithOptions "a" [] [] false "P" " " 0 false =
      .ok (body ++ "\n")) :=
  ⟨(indentation_ignores_pfx "a" [] [] "P" "" " " 0 false).1,
   (indentation_ignores_pfx "a" [] [] "P" "" " " 0 false).2.1,
   (indentation_ignores_pfx "a" [] [] "P" "" " " 0 false).2.2 (by decide)⟩

/-- C8: a Text child whose data consists entirely of whitespace is omitted
(the serializer returns the empty string for it) whenever a non-empty
indent string is given; with an empty indent string the text is emitted
(verbatim or escaped according to `preserveWhitespace`). -/
theorem ws_only_text_elision (d pfx : String) (depth : Nat) (pw : Bool) :
    (∀ indent : String, d.data.all goIsSpace = true → indent ≠ "" →
      serializeNodeWithOptions (.text d) pfx indent depth pw = .ok "") ∧
    serializeNodeWithOptions (.text d) pfx "" depth pw =
      .ok (if pw = true then d else EscapeString d) := by
  constructor
  · intro indent hall hind
    rw [serializeNodeWithOptions, if_pos ⟨hind, trimSpace_of_all_space hall⟩]
  · rw [serializeNodeWithOptions, if_neg (by simp)]
    simp only [ne_eq, not_true_eq_false, if_false, ite_false]
    rw [strEmpty_append, strAppend_empty]

/-- C8 witness: the whitespace-only text `" \t"` is elided with indent one
space and emitted with the empty indent. -/
theorem ws_only_text_elision_witness :
    serializeNodeWithOptions (.text " \t") "" " " 0 false = .ok "" ∧
    serializeNodeWithOptions (.text " \t") "" "" 0 false =
      .ok (if false = true then " \t" else EscapeString " \t") :=
  ⟨(ws_only_text_elision " \t" "" 0 false).1 " " (by decide) (by decide),
   (ws_only_text_elision " \t" "" 0 false).2⟩
